import Mathlib

/-!
Shallow embedding of the `show-my-errors` Rust crate (files `src/lib.rs`,
`src/annotation.rs`) together with proofs about the claims of its
specification.

Modelling conventions:
* A Rust `&str` / `String` used as source text is modelled as a `List Char`
  (a list of Unicode scalar values, exactly Rust `char`s); `byteLen`
  computes its UTF-8 byte length, matching Rust `str::len`.
* Rust byte-slicing `&s[a..b]` is modelled by `byteSlice`, which returns
  `none` exactly when Rust would panic (an index out of bounds, not on a
  character boundary, or `a > b`).
* `usize` is modelled as `Nat`; the library only subtracts values it has
  validated to be in order, which the invariant proofs below establish.
* Fallible operations return `Except Error`; operations that can panic are
  wrapped in `Option` with `none` modelling the panic.
* `Vec::push` is list append, in-place update of a vector element is
  `List.set`.
-/

namespace ShowMyErrors

/-- Annotation severity (`Severity` in `src/annotation.rs`). -/
inductive Severity where
  | info
  | warning
  | error
deriving DecidableEq, Repr

/-- The `Display` implementation for `Severity`. -/
def Severity.display : Severity → List Char
  | .info => String.toList "info"
  | .warning => String.toList "warning"
  | .error => String.toList "error"

/-- Validation errors (`Error` in `src/lib.rs`).  Fields are the start and the
end of the offending range. -/
inductive Error where
  | MultilineRange (s e : Nat)
  | InvalidRange (s e : Nat)
  | AfterStringEnd (s e : Nat)
deriving DecidableEq, Repr

/-- An annotation (`Annotation` in `src/annotation.rs`): a half-open byte
range, optional header, optional body text and a severity.  The `range`
field is private in Rust, so every reachable `Annotation` went through
`Annotation.new`. -/
structure Annotation where
  range : Nat × Nat
  header : Option String
  text : Option String
  severity : Severity
deriving DecidableEq, Repr

/-- `Annotation::new`: rejects ranges with `end < start`. -/
def Annotation.new (range : Nat × Nat) (severity : Severity)
    (header text : Option String) : Except Error Annotation :=
  if range.2 < range.1 then
    .error (.InvalidRange range.1 range.2)
  else
    .ok { range := range, severity := severity, header := header, text := text }

/-- `Annotation::info`. -/
def Annotation.info (range : Nat × Nat) (header text : Option String) :
    Except Error Annotation :=
  Annotation.new range .info header text

/-- `Annotation::warning`. -/
def Annotation.warning (range : Nat × Nat) (header text : Option String) :
    Except Error Annotation :=
  Annotation.new range .warning header text

/-- `Annotation::error`. -/
def Annotation.error (range : Nat × Nat) (header text : Option String) :
    Except Error Annotation :=
  Annotation.new range .error header text

/-- UTF-8 byte length of a character list: Rust `str::len`. -/
def byteLen (s : List Char) : Nat :=
  (s.map Char.utf8Size).sum

/-- One source line (`AnnotatedLine` in `src/lib.rs`): starting byte offset,
borrowed content slice, and the attached annotations. -/
structure AnnotatedLine where
  start : Nat
  content : List Char
  annotations : List Annotation
deriving DecidableEq, Repr

/-- `AnnotatedLine::add`: the multiline-range length check, then `Vec::push`.
The returned pair is the post-state of `&mut self` together with the
`Result` value. -/
def AnnotatedLine.add (line : AnnotatedLine) (ann : Annotation) :
    AnnotatedLine × Except Error Unit :=
  let range := ann.range
  if range.2 - range.1 > byteLen line.content then
    (line, .error (.MultilineRange range.1 range.2))
  else
    ({ line with annotations := line.annotations ++ [ann] }, .ok ())

/-- The annotation list (`AnnotationList` in `src/lib.rs`). -/
structure AnnotationList where
  lines : List AnnotatedLine
  filename : String
deriving DecidableEq, Repr

/-- Drop exactly `n` UTF-8 bytes from the front of `s`; `none` when `n` is
not a character boundary of `s` (where Rust slicing panics). -/
def dropBytes : List Char → Nat → Option (List Char)
  | s, 0 => some s
  | [], _ + 1 => none
  | c :: rest, n + 1 =>
    if c.utf8Size ≤ n + 1 then dropBytes rest (n + 1 - c.utf8Size) else none

/-- Take exactly `n` UTF-8 bytes from the front of `s`; `none` when `n` is
not a character boundary of `s`. -/
def takeBytes : List Char → Nat → Option (List Char)
  | _, 0 => some []
  | [], _ + 1 => none
  | c :: rest, n + 1 =>
    if c.utf8Size ≤ n + 1 then
      (takeBytes rest (n + 1 - c.utf8Size)).map (c :: ·)
    else
      none

/-- Rust byte slicing `&s[a..b]`: `none` models the panic on an invalid
range or a non-boundary index. -/
def byteSlice (s : List Char) (a b : Nat) : Option (List Char) :=
  if a ≤ b then (dropBytes s a).bind (fun t => takeBytes t (b - a)) else none

/-- The `linebreaks` vector built in `AnnotationList::new`: offset `0`, then
for every newline character its index `idx` (from `chars().enumerate()`,
hence a character index) followed by `idx + 1`, then `string.len()` (a byte
length). -/
def linebreaks (s : List Char) : List Nat :=
  0 :: ((s.enum.filter fun p => p.2 == '\n').flatMap fun p => [p.1, p.1 + 1])
    ++ [byteLen s]

/-- `slice::chunks(2)` specialised to the even-length `linebreaks` vector
(`linebreaks` always has length `2 + 2 * number-of-newlines`), with the
indexing `bounds[0]`, `bounds[1]` applied. -/
def chunks2 : List Nat → List (Nat × Nat)
  | a :: b :: rest => (a, b) :: chunks2 rest
  | _ => []

/-- Sequence a list of options (the iterator `collect` of fallible slice
operations in `AnnotationList::new`; a `none` models a slicing panic). -/
def optionMap (f : α → Option β) : List α → Option (List β)
  | [] => some []
  | x :: xs => (f x).bind fun y => (optionMap f xs).map fun ys => y :: ys

/-- `AnnotationList::new`: split the source into lines by pairing
consecutive `linebreaks` boundaries and slicing the source at them.
Returns `none` exactly when a slice index falls outside the string or not
on a character boundary (where Rust panics). -/
def AnnotationList.new (filename : String) (s : List Char) :
    Option AnnotationList :=
  (optionMap
      (fun bounds =>
        (byteSlice s bounds.1 bounds.2).map fun content =>
          AnnotatedLine.mk bounds.1 content [])
      (chunks2 (linebreaks s))).map
    fun lines => AnnotationList.mk lines filename

/-- Result contract of `slice::binary_search_by` with the comparator
`line.start.cmp(&key)`, as used in `AnnotationList::add`.  On slices whose
`start` fields are strictly increasing — the only slices the caller ever
produces — the documented contract is deterministic: `.ok i` when the slice
has an element with `start = key` at index `i`, otherwise `.error j` where
`j` is the insertion point, i.e. the number of elements with `start < key`. -/
def binarySearchStart : List AnnotatedLine → Nat → Except Nat Nat
  | [], _ => .error 0
  | x :: xs, key =>
    if x.start = key then .ok 0
    else
      match binarySearchStart xs key with
      | .ok i => .ok (i + 1)
      | .error j => .error (if x.start < key then j + 1 else j)

/-- The `match` on the binary-search result in `AnnotationList::add`:
`Ok(idx) => idx`, `Err(idx) if idx > 0 => idx - 1`, otherwise the
`unreachable!` panic (modelled by `none`). -/
def AnnotationList.lineIdxFor (l : AnnotationList) (key : Nat) : Option Nat :=
  match binarySearchStart l.lines key with
  | .ok idx => some idx
  | .error idx => if 0 < idx then some (idx - 1) else none

/-- `AnnotationList::add`: locate the owning line by binary search, reject
an annotation starting at or past the end of that line's content, then
delegate to `AnnotatedLine::add`.  The returned pair is the post-state of
`&mut self` together with the `Result` value; `none` models the
`unreachable!` panic (impossible for lists built by `new`). -/
def AnnotationList.add (l : AnnotationList) (ann : Annotation) :
    Option (AnnotationList × Except Error Unit) :=
  let range := ann.range
  (l.lineIdxFor range.1).bind fun line_idx =>
  (l.lines[line_idx]?).map fun line =>
  if range.1 ≥ line.start + byteLen line.content then
    (l, .error (.AfterStringEnd range.1 range.2))
  else
    let r := line.add ann
    ({ l with lines := l.lines.set line_idx r.1 }, r.2)

/-- `AnnotationList::info`: build the annotation, propagating its failure
(with the list untouched), then forward to `add`. -/
def AnnotationList.info (l : AnnotationList) (range : Nat × Nat)
    (header text : Option String) : Option (AnnotationList × Except Error Unit) :=
  match Annotation.info range header text with
  | .error e => some (l, .error e)
  | .ok a => l.add a

/-- `AnnotationList::warning`. -/
def AnnotationList.warning (l : AnnotationList) (range : Nat × Nat)
    (header text : Option String) : Option (AnnotationList × Except Error Unit) :=
  match Annotation.warning range header text with
  | .error e => some (l, .error e)
  | .ok a => l.add a

/-- `AnnotationList::error`. -/
def AnnotationList.addError (l : AnnotationList) (range : Nat × Nat)
    (header text : Option String) : Option (AnnotationList × Except Error Unit) :=
  match Annotation.error range header text with
  | .error e => some (l, .error e)
  | .ok a => l.add a

/-- Decimal rendering of a number, as produced by `usize`'s `Display`
(`(idx + 1).to_string()` in `AnnotationList::show`). -/
def natStr (n : Nat) : List Char :=
  (Nat.repr n).toList

/-- `print_n(stream, buf, count)` from `src/lib.rs`: write `buf` (always a
single byte here) `count` times. -/
def printN (c : Char) (count : Nat) : List Char :=
  List.replicate count c

/-- The body of the inner loop of `AnnotationList::show` for one annotation:
everything written to the stream for one block after the blank-line
separator decision.  Styling calls (`set_color` / `reset`) write nothing on
the monochrome no-color buffer used by `to_bytes`, so they do not appear.
Each `let stream := ...` is one `write!` / `print_n` of the source. -/
def writeBlock (filename : List Char) (idx : Nat) (line : AnnotatedLine)
    (ann : Annotation) (stream : List Char) : List Char :=
  let range := ann.range
  -- Severity and header
  let stream := stream ++ ann.severity.display ++ [':']
  let stream :=
    match ann.header with
    | some header => stream ++ [' '] ++ header.toList ++ ['\n']
    | none => stream ++ ['\n']
  -- Line numbers column and filename
  let linenr := natStr (idx + 1)
  let nrcol_width := linenr.length + 2
  let stream := stream ++ printN ' ' (linenr.length + 1)
  let stream := stream ++ String.toList "--> "
  let stream := stream ++ filename ++ [':'] ++ natStr (idx + 1) ++ [':']
    ++ natStr (range.1 - line.start + 1) ++ ['\n']
  let stream := stream ++ printN ' ' nrcol_width
  let stream := stream ++ ['|', '\n', ' '] ++ natStr (idx + 1) ++ String.toList " | "
  -- Line content
  let stream := stream ++ line.content ++ ['\n']
  -- Line numbers column
  let stream := stream ++ printN ' ' nrcol_width
  let stream := stream ++ ['|']
  -- Annotation
  let stream :=
    if range.2 - range.1 ≠ 0 then
      let stream := stream ++ printN ' ' (range.1 - line.start + 1)
        ++ printN '^' (range.2 - range.1)
      match ann.text with
      | some text => stream ++ [' '] ++ text.toList
      | none => stream
    else
      stream
  stream ++ ['\n']

/-- The inner `for annotation in line.annotations()` loop of
`AnnotationList::show`, threading the `first_output` flag and the stream. -/
def showAnns (filename : List Char) (idx : Nat) (line : AnnotatedLine) :
    List Annotation → Bool × List Char → Bool × List Char
  | [], st => st
  | ann :: rest, (first_output, stream) =>
    let stream := if first_output then stream else stream ++ ['\n']
    showAnns filename idx line rest
      (false, writeBlock filename idx line ann stream)

/-- The outer `for (idx, line) in self.lines.iter().enumerate()` loop of
`AnnotationList::show`. -/
def showLines (filename : List Char) :
    List (Nat × AnnotatedLine) → Bool × List Char → Bool × List Char
  | [], st => st
  | (idx, line) :: rest, st =>
    showLines filename rest (showAnns filename idx line line.annotations st)

/-- `AnnotationList::show` on a styling-free sink (what `to_bytes` uses):
the stream after appending every rendered block.  `show` takes `&self`, so
it cannot modify the list. -/
def AnnotationList.show (l : AnnotationList) (stream : List Char) : List Char :=
  (showLines l.filename.toList l.lines.enum (true, stream)).2

/-- `AnnotationList::to_bytes`: render monochrome into a fresh buffer. -/
def AnnotationList.to_bytes (l : AnnotationList) : List Char :=
  l.show []

/-- `AnnotationList::to_string`: decode the `to_bytes` buffer as UTF-8.  In
the model the buffer is a character list, so the decoding step is total
(the `expect` in the source cannot fire on the output of `show`). -/
def AnnotationList.to_string (l : AnnotationList) : String :=
  String.mk l.to_bytes

/-- Adjacent line spans are ordered and separated: each line ends strictly
before the next line's start (the separating line-terminator byte sits in
between). -/
def spansOrdered : List AnnotatedLine → Bool
  | [] => true
  | [_] => true
  | x :: y :: rest =>
    decide (x.start + byteLen x.content < y.start) && spansOrdered (y :: rest)

/-- Adjacent boundary pairs produced by `chunks2` are separated: each chunk
ends strictly before the next chunk starts. -/
def boundsOrdered : List (Nat × Nat) → Bool
  | [] => true
  | [_] => true
  | p :: q :: rest => decide (p.2 < q.1) && boundsOrdered (q :: rest)

instance {ε α : Type} [DecidableEq ε] [DecidableEq α] : DecidableEq (Except ε α) :=
  fun x y =>
    match x, y with
    | .error a, .error b =>
      if h : a = b then .isTrue (h ▸ rfl) else .isFalse fun hh => h (Except.error.inj hh)
    | .ok a, .ok b =>
      if h : a = b then .isTrue (h ▸ rfl) else .isFalse fun hh => h (Except.ok.inj hh)
    | .error _, .ok _ => .isFalse fun hh => Except.noConfusion hh
    | .ok _, .error _ => .isFalse fun hh => Except.noConfusion hh

/-- A line with one annotation appended at the end of its sequence (the
effect of the `Vec::push` in `AnnotatedLine::add`). -/
def appendAnn (line : AnnotatedLine) (a : Annotation) : AnnotatedLine :=
  { line with annotations := line.annotations ++ [a] }

/-- Structural well-formedness of an `AnnotationList`: the first line starts
at offset `0` and line spans are ordered and disjoint.  Every list reachable
through the public API satisfies it (`AnnotationList::new` establishes it
and `AnnotationList::add` does not touch line starts or contents). -/
def WF (l : AnnotationList) : Prop :=
  (l.lines[0]?).map AnnotatedLine.start = some 0 ∧ spansOrdered l.lines = true

instance (l : AnnotationList) : Decidable (WF l) := by
  unfold WF; infer_instance

/-- Invariant on stored annotations: every annotation attached to a line
starts inside that line's content span and has an ordered range.  This is
what makes the unsigned subtractions in `AnnotationList::show`
(`range.start - line.start` and `range.end - range.start`) safe. -/
def AnnInv (l : AnnotationList) : Prop :=
  ∀ line ∈ l.lines, ∀ a ∈ line.annotations,
    line.start ≤ a.range.1 ∧ a.range.1 < line.start + byteLen line.content ∧
      a.range.1 ≤ a.range.2

instance (l : AnnotationList) : Decidable (AnnInv l) := by
  unfold AnnInv; infer_instance

/-- The part of a rendered block preceding the closing line-number/pipe
footer: severity, optional header, location line, pipe line, and the quoted
source line.  (Stated for the zero-length-range claim; it matches the
corresponding prefix of `writeBlock` and never touches `annotation.text`.) -/
def blockPrefix (filename : List Char) (idx : Nat) (line : AnnotatedLine)
    (ann : Annotation) (stream : List Char) : List Char :=
  let stream := stream ++ ann.severity.display ++ [':']
  let stream :=
    match ann.header with
    | some header => stream ++ [' '] ++ header.toList ++ ['\n']
    | none => stream ++ ['\n']
  let linenr := natStr (idx + 1)
  let stream := stream ++ printN ' ' (linenr.length + 1)
  let stream := stream ++ String.toList "--> "
  let stream := stream ++ filename ++ [':'] ++ natStr (idx + 1) ++ [':']
    ++ natStr (ann.range.1 - line.start + 1) ++ ['\n']
  let stream := stream ++ printN ' ' (linenr.length + 2)
  let stream := stream ++ ['|', '\n', ' '] ++ natStr (idx + 1) ++ String.toList " | "
  stream ++ line.content ++ ['\n']

end ShowMyErrors

namespace ShowMyErrors

theorem byteLen_nil : byteLen [] = 0 := rfl

theorem byteLen_cons (c : Char) (t : List Char) :
    byteLen (c :: t) = c.utf8Size + byteLen t := by
  simp [byteLen]

theorem takeBytes_byteLen : ∀ (s : List Char) (n : Nat) (t : List Char),
    takeBytes s n = some t → byteLen t = n := by
  intro s
  induction s with
  | nil =>
    intro n t h
    cases n with
    | zero => simp [takeBytes] at h; subst h; rfl
    | succ m => simp [takeBytes] at h
  | cons c rest ih =>
    intro n t h
    cases n with
    | zero => simp [takeBytes] at h; subst h; rfl
    | succ m =>
      simp only [takeBytes] at h
      split at h
      · next hle =>
        rw [Option.map_eq_some'] at h
        obtain ⟨u, hu, ht⟩ := h
        have := ih _ _ hu
        rw [← ht, byteLen_cons, this]
        omega
      · exact absurd h (by simp)

theorem byteSlice_spec (s : List Char) (a b : Nat) (t : List Char)
    (h : byteSlice s a b = some t) : a ≤ b ∧ byteLen t = b - a := by
  unfold byteSlice at h
  split at h
  · next hab =>
    rw [Option.bind_eq_some] at h
    obtain ⟨u, _, hu⟩ := h
    exact ⟨hab, takeBytes_byteLen _ _ _ hu⟩
  · exact absurd h (by simp)

theorem chunks2_flat (ips : List (Nat × Char)) : ∀ (a L : Nat),
    ∃ b rest,
      chunks2 (a :: ((ips.flatMap fun p => [p.1, p.1 + 1]) ++ [L])) = (a, b) :: rest ∧
        boundsOrdered ((a, b) :: rest) = true := by
  induction ips with
  | nil =>
    intro a L
    exact ⟨L, [], by simp [chunks2], by simp [boundsOrdered]⟩
  | cons p ips ih =>
    intro a L
    obtain ⟨b, rest, h1, h2⟩ := ih (p.1 + 1) L
    refine ⟨p.1, (p.1 + 1, b) :: rest, ?_, ?_⟩
    · show (a, p.1) :: chunks2 ((p.1 + 1) :: ((ips.flatMap fun p => [p.1, p.1 + 1]) ++ [L]))
        = (a, p.1) :: (p.1 + 1, b) :: rest
      rw [h1]
    · simp [boundsOrdered, h2]

theorem boundsOrdered_adj : ∀ (cs : List (Nat × Nat)), boundsOrdered cs = true →
    ∀ k, (h : k + 1 < cs.length) → cs[k].2 < cs[k + 1].1 := by
  intro cs
  induction cs with
  | nil => intro _ k h; simp at h
  | cons p cs ih =>
    intro hbo k h
    cases cs with
    | nil => simp at h
    | cons q rest =>
      simp only [boundsOrdered, Bool.and_eq_true, decide_eq_true_eq] at hbo
      cases k with
      | zero => simpa using hbo.1
      | succ m =>
        have := ih hbo.2 m (by simpa using h)
        simpa using this

theorem optionMap_spec {α β : Type} (f : α → Option β) :
    ∀ (cs : List α) (ys : List β), optionMap f cs = some ys →
      ys.length = cs.length ∧
        ∀ k, (h : k < cs.length) → (h' : k < ys.length) → f cs[k] = some ys[k] := by
  intro cs
  induction cs with
  | nil =>
    intro ys h
    simp [optionMap] at h
    simp [← h]
  | cons x xs ih =>
    intro ys h
    simp only [optionMap, Option.bind_eq_some, Option.map_eq_some'] at h
    obtain ⟨y, hy, ys', hys', rfl⟩ := h
    obtain ⟨hlen, hpt⟩ := ih ys' hys'
    refine ⟨by simp [hlen], ?_⟩
    intro k hk hk'
    cases k with
    | zero => simpa using hy
    | succ m =>
      have := hpt m (by simpa using hk) (by simpa using hk')
      simpa using this

theorem spansOrdered_of_adj : ∀ (ls : List AnnotatedLine),
    (∀ k, (h : k + 1 < ls.length) → ls[k].start + byteLen ls[k].content < ls[k + 1].start) →
    spansOrdered ls = true := by
  intro ls
  induction ls with
  | nil => intro _; rfl
  | cons x xs ih =>
    intro hadj
    cases xs with
    | nil => rfl
    | cons y rest =>
      have h0 := hadj 0 (by simp)
      simp only [spansOrdered, Bool.and_eq_true, decide_eq_true_eq]
      refine ⟨by simpa using h0, ih ?_⟩
      intro k h
      have := hadj (k + 1) (by simpa using h)
      simpa using this

theorem spans_adj : ∀ (ls : List AnnotatedLine), spansOrdered ls = true →
    ∀ k, (h : k + 1 < ls.length) → ls[k].start + byteLen ls[k].content < ls[k + 1].start := by
  intro ls
  induction ls with
  | nil => intro _ k h; simp at h
  | cons x xs ih =>
    intro hso k h
    cases xs with
    | nil => simp at h
    | cons y rest =>
      simp only [spansOrdered, Bool.and_eq_true, decide_eq_true_eq] at hso
      cases k with
      | zero => simpa using hso.1
      | succ m =>
        have := ih hso.2 m (by simpa using h)
        simpa using this

theorem spans_pairwise (ls : List AnnotatedLine) (hso : spansOrdered ls = true) :
    ∀ (i j : Nat), i < j → ∀ (hi : i < ls.length) (hj : j < ls.length),
      ls[i].start + byteLen ls[i].content < ls[j].start := by
  intro i j hij
  induction hij with
  | refl => intro hi hj; exact spans_adj ls hso i hj
  | step hle ih =>
    rename_i j'
    intro hi hj
    have hj' : j' < ls.length := by omega
    have h1 := ih hi hj'
    have h2 := spans_adj ls hso j' hj
    simp only [Nat.succ_eq_add_one] at h2 ⊢
    omega

theorem spansOrdered_tail (x : AnnotatedLine) (xs : List AnnotatedLine)
    (h : spansOrdered (x :: xs) = true) : spansOrdered xs = true := by
  cases xs with
  | nil => rfl
  | cons y rest =>
    simp only [spansOrdered, Bool.and_eq_true] at h
    exact h.2

theorem starts_lt (ls : List AnnotatedLine) (hso : spansOrdered ls = true)
    (i j : Nat) (hij : i < j) (hi : i < ls.length) (hj : j < ls.length) :
    ls[i].start < ls[j].start := by
  have := spans_pairwise ls hso i j hij hi hj
  omega

theorem new_spec (f : String) (s : List Char) (l : AnnotationList)
    (h : AnnotationList.new f s = some l) :
    WF l ∧ l.filename = f ∧ ∀ line ∈ l.lines, line.annotations = [] := by
  unfold AnnotationList.new at h
  rw [Option.map_eq_some'] at h
  obtain ⟨lines, hmap, hl⟩ := h
  obtain ⟨b, rest, hcs, hbo⟩ :=
    chunks2_flat (s.enum.filter fun p => p.2 == '\n') 0 (byteLen s)
  unfold linebreaks at hmap
  rw [List.cons_append, hcs] at hmap
  obtain ⟨hlen, hpt⟩ := optionMap_spec _ _ _ hmap
  have key : ∀ k, (hk : k < lines.length) → (hk' : k < ((0, b) :: rest).length) →
      lines[k].start = ((0, b) :: rest)[k].1 ∧ lines[k].annotations = [] ∧
        lines[k].start + byteLen lines[k].content = ((0, b) :: rest)[k].2 := by
    intro k hk hk'
    have hg := hpt k hk' hk
    rw [Option.map_eq_some'] at hg
    obtain ⟨content, hslice, hline⟩ := hg
    obtain ⟨hab, hblen⟩ := byteSlice_spec _ _ _ _ hslice
    rw [← hline]
    refine ⟨rfl, rfl, ?_⟩
    simp only
    rw [hblen]
    omega
  have hlen0 : 0 < lines.length := by rw [hlen]; simp
  have hwf : WF (AnnotationList.mk lines f) := by
    constructor
    · show (lines[0]?).map AnnotatedLine.start = some 0
      rw [List.getElem?_eq_getElem hlen0]
      have h0 := (key 0 hlen0 (by simp)).1
      simp [h0]
    · show spansOrdered lines = true
      apply spansOrdered_of_adj
      intro k hk1
      have hk : k < lines.length := by omega
      have hk' : k < ((0, b) :: rest).length := by omega
      have hk1' : k + 1 < ((0, b) :: rest).length := by omega
      have e1 := (key k hk hk').2.2
      have e2 := (key (k + 1) hk1 hk1').1
      have hadj := boundsOrdered_adj _ hbo k hk1'
      rw [e1, e2]
      exact hadj
  have hempty : ∀ line ∈ lines, line.annotations = [] := by
    intro line hmem
    rw [List.mem_iff_getElem] at hmem
    obtain ⟨k, hk, hline⟩ := hmem
    rw [← hline]
    exact (key k hk (by omega)).2.1
  rw [← hl]
  exact ⟨hwf, rfl, hempty⟩

theorem new_anninv (f : String) (s : List Char) (l : AnnotationList)
    (h : AnnotationList.new f s = some l) : AnnInv l := by
  have hempty := (new_spec f s l h).2.2
  intro line hmem a ha
  rw [hempty line hmem] at ha
  simp at ha

theorem bs_ok_spec : ∀ (ls : List AnnotatedLine) (key i : Nat),
    binarySearchStart ls key = .ok i → ∃ h : i < ls.length, ls[i].start = key := by
  intro ls
  induction ls with
  | nil => intro key i h; simp [binarySearchStart] at h
  | cons x xs ih =>
    intro key i h
    simp only [binarySearchStart] at h
    split at h
    · next heq =>
      have : i = 0 := by simpa using h.symm
      subst this
      exact ⟨by simp, by simpa using heq⟩
    · next hne =>
      cases hrec : binarySearchStart xs key with
      | ok i' =>
        simp only [hrec] at h
        have hii : i' + 1 = i := by simpa using h
        obtain ⟨h', hs⟩ := ih key i' hrec
        subst hii
        exact ⟨by simpa using h', by simpa using hs⟩
      | error j =>
        simp only [hrec] at h
        simp at h

theorem bs_err_le : ∀ (ls : List AnnotatedLine) (key j : Nat),
    binarySearchStart ls key = .error j → j ≤ ls.length := by
  intro ls
  induction ls with
  | nil => intro key j h; simp [binarySearchStart] at h; omega
  | cons x xs ih =>
    intro key j h
    simp only [binarySearchStart] at h
    split at h
    · simp at h
    · cases hrec : binarySearchStart xs key with
      | ok i' => simp only [hrec] at h; simp at h
      | error j' =>
        simp only [hrec] at h
        have hj : (if x.start < key then j' + 1 else j') = j := by simpa using h
        have := ih key j' hrec
        simp only [List.length_cons]
        split at hj <;> omega

theorem bs_err_ne : ∀ (ls : List AnnotatedLine) (key j : Nat),
    binarySearchStart ls key = .error j → ∀ x ∈ ls, x.start ≠ key := by
  intro ls
  induction ls with
  | nil => intro key j _ x hx; simp at hx
  | cons x xs ih =>
    intro key j h y hy
    simp only [binarySearchStart] at h
    split at h
    · simp at h
    · next hne =>
      cases hrec : binarySearchStart xs key with
      | ok i' => simp only [hrec] at h; simp at h
      | error j' =>
        rcases List.mem_cons.mp hy with hyx | hyxs
        · rw [hyx]; exact hne
        · exact ih key j' hrec y hyxs

theorem bs_err_iff : ∀ (ls : List AnnotatedLine), spansOrdered ls = true →
    ∀ (key j : Nat), binarySearchStart ls key = .error j →
      ∀ m, (hm : m < ls.length) → (m < j ↔ ls[m].start < key) := by
  intro ls
  induction ls with
  | nil => intro _ key j _ m hm; simp at hm
  | cons x xs ih =>
    intro hso key j h m hm
    simp only [binarySearchStart] at h
    split at h
    · simp at h
    · next hne =>
      cases hrec : binarySearchStart xs key with
      | ok i' => simp only [hrec] at h; simp at h
      | error j' =>
        simp only [hrec] at h
        have hj : (if x.start < key then j' + 1 else j') = j := by simpa using h
        have ihm := ih (spansOrdered_tail x xs hso) key j' hrec
        by_cases hx : x.start < key
        · rw [if_pos hx] at hj
          subst hj
          cases m with
          | zero =>
            simp only [List.getElem_cons_zero]
            omega
          | succ m' =>
            have := ihm m' (by simpa using hm)
            simp only [List.getElem_cons_succ]
            omega
        · rw [if_neg hx] at hj
          subst hj
          have hxgt : key < x.start := by
            rcases Nat.lt_trichotomy x.start key with h1 | h1 | h1
            · exact absurd h1 hx
            · exact absurd h1 hne
            · exact h1
          have hj0 : j' = 0 := by
            by_contra hpos
            have hpos' : 0 < j' := Nat.pos_of_ne_zero hpos
            have hle := bs_err_le xs key j' hrec
            have hlenxs : 0 < xs.length := by omega
            have hx0 := (ihm 0 hlenxs).mp hpos'
            have hadj := spans_adj (x :: xs) hso 0 (by simpa using hlenxs)
            simp only [List.getElem_cons_zero, List.getElem_cons_succ] at hadj
            omega
          subst hj0
          cases m with
          | zero =>
            simp only [List.getElem_cons_zero]
            omega
          | succ m' =>
            have hiff := ihm m' (by simpa using hm)
            simp only [List.getElem_cons_succ]
            omega

theorem lineIdxFor_spec (l : AnnotationList) (hwf : WF l) (key : Nat) :
    ∃ j, ∃ hj : j < l.lines.length, l.lineIdxFor key = some j ∧
      l.lines[j].start ≤ key ∧
      ∀ m, (hm : m < l.lines.length) → l.lines[m].start ≤ key → m ≤ j := by
  obtain ⟨hhead, hso⟩ := hwf
  have hlen0 : 0 < l.lines.length := by
    by_contra h0
    rw [List.getElem?_eq_none (by omega)] at hhead
    simp at hhead
  have hstart0 : l.lines[0].start = 0 := by
    rw [List.getElem?_eq_getElem hlen0] at hhead
    simpa using hhead
  cases hbs : binarySearchStart l.lines key with
  | ok i =>
    obtain ⟨hi, hieq⟩ := bs_ok_spec _ _ _ hbs
    refine ⟨i, hi, ?_, by omega, ?_⟩
    · simp [AnnotationList.lineIdxFor, hbs]
    · intro m hm hle
      by_contra hgt
      push_neg at hgt
      have := starts_lt _ hso i m hgt hi hm
      omega
  | error j =>
    have hiff := bs_err_iff _ hso key j hbs
    have hne := bs_err_ne _ _ _ hbs
    have hjle := bs_err_le _ _ _ hbs
    have hj0 : 0 < j := by
      rcases Nat.eq_zero_or_pos key with hk | hk
      · exact absurd (by omega : l.lines[0].start = key)
          (hne _ (List.getElem_mem hlen0))
      · exact (hiff 0 hlen0).mpr (by omega)
    refine ⟨j - 1, by omega, ?_, ?_, ?_⟩
    · simp [AnnotationList.lineIdxFor, hbs, hj0]
    · have := (hiff (j - 1) (by omega)).mp (by omega)
      omega
    · intro m hm hle
      have hnem := hne _ (List.getElem_mem hm)
      have hltm : l.lines[m].start < key := by omega
      have := (hiff m hm).mpr hltm
      omega

theorem set_self {α : Type} : ∀ (xs : List α) (n : Nat), (h : n < xs.length) →
    xs.set n xs[n] = xs := by
  intro xs
  induction xs with
  | nil => intro n h; simp at h
  | cons x xs ih =>
    intro n h
    cases n with
    | zero => simp
    | succ m => simpa using ih m (by simpa using h)

theorem add_cases (l : AnnotationList) (a : Annotation)
    (lr : AnnotationList × Except Error Unit) (h : l.add a = some lr) :
    ∃ j, ∃ hj : j < l.lines.length, l.lineIdxFor a.range.1 = some j ∧
      lr = (if a.range.1 ≥ l.lines[j].start + byteLen l.lines[j].content then
          (l, .error (.AfterStringEnd a.range.1 a.range.2))
        else
          ({ l with lines := l.lines.set j (l.lines[j].add a).1 },
            (l.lines[j].add a).2)) := by
  unfold AnnotationList.add at h
  simp only [] at h
  cases hfind : l.lineIdxFor a.range.1 with
  | none => rw [hfind] at h; simp at h
  | some j =>
    rw [hfind] at h
    simp only [Option.some_bind] at h
    cases hget : l.lines[j]? with
    | none => rw [hget] at h; simp at h
    | some line =>
      rw [hget] at h
      simp only [Option.map_some'] at h
      obtain ⟨hj, hline⟩ := List.getElem?_eq_some.mp hget
      refine ⟨j, hj, rfl, ?_⟩
      rw [← hline] at h
      exact (Option.some.inj h).symm

theorem add_spec (l : AnnotationList) (hwf : WF l) (a : Annotation) :
    ∃ j, ∃ hj : j < l.lines.length,
      l.lines[j].start ≤ a.range.1 ∧
      (∀ m, (hm : m < l.lines.length) → l.lines[m].start ≤ a.range.1 → m ≤ j) ∧
      l.add a = some
        (if a.range.1 ≥ l.lines[j].start + byteLen l.lines[j].content then
          (l, .error (.AfterStringEnd a.range.1 a.range.2))
        else
          ({ l with lines := l.lines.set j (l.lines[j].add a).1 },
            (l.lines[j].add a).2)) := by
  obtain ⟨j, hj, hfind, hle, hmax⟩ := lineIdxFor_spec l hwf a.range.1
  refine ⟨j, hj, hle, hmax, ?_⟩
  unfold AnnotationList.add
  simp only []
  rw [hfind]
  simp only [Option.some_bind, List.getElem?_eq_getElem hj, Option.map_some']

theorem line_add_pos (line : AnnotatedLine) (a : Annotation)
    (h : a.range.2 - a.range.1 > byteLen line.content) :
    line.add a = (line, .error (.MultilineRange a.range.1 a.range.2)) := by
  unfold AnnotatedLine.add
  simp only []
  rw [if_pos h]

theorem line_add_neg (line : AnnotatedLine) (a : Annotation)
    (h : ¬a.range.2 - a.range.1 > byteLen line.content) :
    line.add a = (appendAnn line a, .ok ()) := by
  unfold AnnotatedLine.add
  simp only []
  rw [if_neg h]
  rfl

theorem add_error_unchanged (l : AnnotationList) (a : Annotation)
    (lr : AnnotationList × Except Error Unit) (h : l.add a = some lr)
    (e : Error) (he : lr.2 = .error e) : lr.1 = l := by
  obtain ⟨j, hj, _, hcase⟩ := add_cases l a lr h
  by_cases hge : a.range.1 ≥ l.lines[j].start + byteLen l.lines[j].content
  · rw [if_pos hge] at hcase
    rw [hcase]
  · rw [if_neg hge] at hcase
    by_cases hml : a.range.2 - a.range.1 > byteLen l.lines[j].content
    · rw [line_add_pos _ _ hml] at hcase
      rw [hcase]
      simp only []
      rw [set_self l.lines j hj]
    · rw [line_add_neg _ _ hml] at hcase
      rw [hcase] at he
      simp at he

theorem add_ok_shape (l : AnnotationList) (a : Annotation)
    (lr : AnnotationList × Except Error Unit) (h : l.add a = some lr)
    (hok : lr.2 = .ok ()) :
    ∃ j, ∃ hj : j < l.lines.length,
      l.lineIdxFor a.range.1 = some j ∧
      ¬a.range.1 ≥ l.lines[j].start + byteLen l.lines[j].content ∧
      ¬a.range.2 - a.range.1 > byteLen l.lines[j].content ∧
      lr.1 = { l with lines := l.lines.set j (appendAnn l.lines[j] a) } := by
  obtain ⟨j, hj, hfind, hcase⟩ := add_cases l a lr h
  by_cases hge : a.range.1 ≥ l.lines[j].start + byteLen l.lines[j].content
  · rw [if_pos hge] at hcase
    rw [hcase] at hok
    simp at hok
  · rw [if_neg hge] at hcase
    by_cases hml : a.range.2 - a.range.1 > byteLen l.lines[j].content
    · rw [line_add_pos _ _ hml] at hcase
      rw [hcase] at hok
      simp at hok
    · rw [line_add_neg _ _ hml] at hcase
      exact ⟨j, hj, hfind, hge, hml, by rw [hcase]⟩

theorem wf_set (l : AnnotationList) (j : Nat) (hj : j < l.lines.length)
    (line' : AnnotatedLine) (hstart : line'.start = l.lines[j].start)
    (hcontent : line'.content = l.lines[j].content) (hwf : WF l) :
    WF { l with lines := l.lines.set j line' } := by
  obtain ⟨hhead, hso⟩ := hwf
  have hlen0 : 0 < l.lines.length := by omega
  constructor
  · show (((l.lines.set j line')[0]?).map AnnotatedLine.start) = some 0
    rw [List.getElem?_eq_getElem (by simpa using hlen0)]
    rw [List.getElem?_eq_getElem hlen0] at hhead
    rw [List.getElem_set]
    by_cases hj0 : j = 0
    · rw [if_pos hj0]
      subst hj0
      simpa [hstart] using hhead
    · rw [if_neg hj0]
      exact hhead
  · show spansOrdered (l.lines.set j line') = true
    apply spansOrdered_of_adj
    intro k hk1
    have hk1' : k + 1 < l.lines.length := by simpa using hk1
    have hadj := spans_adj _ hso k hk1'
    rw [List.getElem_set, List.getElem_set]
    by_cases h1 : j = k
    · subst h1
      rw [if_pos rfl, if_neg (by omega)]
      rw [hstart, hcontent]
      exact hadj
    · rw [if_neg h1]
      by_cases h2 : j = k + 1
      · subst h2
        rw [if_pos rfl, hstart]
        exact hadj
      · rw [if_neg h2]
        exact hadj

theorem wf_add (l : AnnotationList) (hwf : WF l) (a : Annotation)
    (lr : AnnotationList × Except Error Unit) (h : l.add a = some lr) :
    WF lr.1 := by
  cases hres : lr.2 with
  | error e => rw [add_error_unchanged l a lr h e hres]; exact hwf
  | ok u =>
    cases u
    obtain ⟨j, hj, _, _, _, hshape⟩ := add_ok_shape l a lr h hres
    rw [hshape]
    exact wf_set l j hj _ rfl rfl hwf

theorem anninv_add (l : AnnotationList) (hwf : WF l) (hinv : AnnInv l)
    (a : Annotation) (hr : a.range.1 ≤ a.range.2)
    (lr : AnnotationList × Except Error Unit) (h : l.add a = some lr) :
    AnnInv lr.1 := by
  cases hres : lr.2 with
  | error e => rw [add_error_unchanged l a lr h e hres]; exact hinv
  | ok u =>
    cases u
    obtain ⟨j, hj, hfind, hge, hml, hshape⟩ := add_ok_shape l a lr h hres
    obtain ⟨j', hj', hfind', hle', hmax'⟩ := lineIdxFor_spec l hwf a.range.1
    have hjj : j = j' := by
      rw [hfind] at hfind'
      exact Option.some.inj hfind'
    subst hjj
    rw [hshape]
    intro line hmem ann hann
    rw [List.mem_iff_getElem] at hmem
    obtain ⟨k, hk, hkline⟩ := hmem
    have hk' : k < l.lines.length := by simpa using hk
    rw [List.getElem_set] at hkline
    by_cases hcase : j = k
    · rw [if_pos hcase] at hkline
      rw [← hkline] at hann ⊢
      simp only [appendAnn] at hann
      rcases List.mem_append.mp hann with hold | hnew
      · have := hinv l.lines[j] (List.getElem_mem hj) ann hold
        simpa [appendAnn] using this
      · have hanna : ann = a := by simpa using hnew
        subst hanna
        refine ⟨by simpa [appendAnn] using hle', by simpa [appendAnn] using (by omega :
          ann.range.1 < l.lines[j].start + byteLen l.lines[j].content), hr⟩
    · rw [if_neg hcase] at hkline
      rw [← hkline] at hann ⊢
      exact hinv l.lines[k] (List.getElem_mem hk') ann hann

theorem writeBlock_append (f : List Char) (idx : Nat) (line : AnnotatedLine)
    (a : Annotation) (s : List Char) :
    writeBlock f idx line a s = s ++ writeBlock f idx line a [] := by
  unfold writeBlock
  cases a.header <;> cases a.text <;>
    by_cases hz : a.range.2 - a.range.1 ≠ 0 <;>
      simp [hz, List.append_assoc]

theorem showAnns_append (f : List Char) (idx : Nat) (line : AnnotatedLine) :
    ∀ (anns : List Annotation) (first : Bool) (s : List Char),
      showAnns f idx line anns (first, s)
        = ((showAnns f idx line anns (first, [])).1,
            s ++ (showAnns f idx line anns (first, [])).2) := by
  intro anns
  induction anns with
  | nil => intro first s; simp [showAnns]
  | cons a rest ih =>
    intro first s
    cases first
    · simp only [showAnns, Bool.false_eq_true, if_false]
      rw [ih false (writeBlock f idx line a (s ++ ['\n'])),
        ih false (writeBlock f idx line a ([] ++ ['\n']))]
      rw [writeBlock_append f idx line a (s ++ ['\n']),
        writeBlock_append f idx line a ([] ++ ['\n'])]
      simp [List.append_assoc]
    · simp only [showAnns, if_true]
      rw [ih false (writeBlock f idx line a s),
        ih false (writeBlock f idx line a [])]
      rw [writeBlock_append f idx line a s]
      simp [List.append_assoc]

theorem showLines_append (f : List Char) :
    ∀ (ls : List (Nat × AnnotatedLine)) (first : Bool) (s : List Char),
      showLines f ls (first, s)
        = ((showLines f ls (first, [])).1, s ++ (showLines f ls (first, [])).2) := by
  intro ls
  induction ls with
  | nil => intro first s; simp [showLines]
  | cons p rest ih =>
    intro first s
    obtain ⟨idx, line⟩ := p
    rcases hA : showAnns f idx line line.annotations (first, []) with ⟨b1, s1⟩
    have h1 : showAnns f idx line line.annotations (first, s) = (b1, s ++ s1) := by
      rw [showAnns_append f idx line line.annotations first s, hA]
    simp only [showLines, h1, hA]
    rw [ih b1 (s ++ s1), ih b1 s1]
    simp [List.append_assoc]

set_option maxRecDepth 100000 in
/-- Claim C1: constructing the list over `"Hello world!"`, adding the
`warning(4..7, ...)` and `info(0..0, ...)` annotations and rendering with
`to_string` produces exactly the documented message: a blank separator line
between the two blocks, none before the first or after the last, 1-based
columns (`4..7` shows as column 5, three carets under bytes 4..7), and the
zero-length `info` range rendering a bare footer. -/
theorem C1_end_to_end :
    ((AnnotationList.new "hello.txt" (String.toList "Hello world!")).bind fun l =>
      (l.warning (4, 7) (some "punctuation problem") (some "you probably forgot a comma")).bind
        fun r1 =>
      match r1 with
      | (l1, .ok ()) =>
        (l1.info (0, 0) (some "consider adding some translations") none).bind fun r2 =>
          match r2 with
          | (l2, .ok ()) => some l2.to_string
          | _ => none
      | _ => none)
    = some "warning: punctuation problem\n  --> hello.txt:1:5\n   |\n 1 | Hello world!\n   |     ^^^ you probably forgot a comma\n\ninfo: consider adding some translations\n  --> hello.txt:1:1\n   |\n 1 | Hello world!\n   |\n" := by
  decide

/-- Claim C3 (refuted, code bug): `AnnotationList::new` does NOT succeed on
every UTF-8 source string.  It collects newline positions from
`chars().enumerate()` — character indices — but slices the source by byte
index, so on `"é\n"` it attempts the slice `&string[0..1]`, and byte 1 is
not a character boundary: Rust panics.  In the model the panic is `none`. -/
theorem C3_new_panics_on_nonascii :
    AnnotationList.new "hello.txt" (String.toList "é\n") = none := by
  decide

/-- Claim C4 (refuted, code bug): the line records do not satisfy the
claimed invariants for every source string.  For `"éa\nb"` (newline at
character index 2 but byte index 3) construction succeeds yet produces
records `(0, "é")` and `(3, "\nb")`: the second record's content contains
the line-terminator byte, byte offset 2 (`'a'`) is covered by no record,
and no record starts at the second line's first content byte (4).  The
concrete ASCII example listed by the claim does hold (final conjunct). -/
theorem C4_line_records_violate_invariants :
    AnnotationList.new "f" (String.toList "éa\nb")
      = some (AnnotationList.mk [⟨0, ['é'], []⟩, ⟨3, ['\n', 'b'], []⟩] "f") ∧
    (∃ line ∈ [(⟨0, ['é'], []⟩ : AnnotatedLine), ⟨3, ['\n', 'b'], []⟩],
      '\n' ∈ line.content) ∧
    AnnotationList.new "test.txt" (String.toList "\nstring\nwith\nmany\n\nnewlines\n\n")
      = some (AnnotationList.mk
          [⟨0, [], []⟩, ⟨1, String.toList "string", []⟩, ⟨8, String.toList "with", []⟩,
            ⟨13, String.toList "many", []⟩, ⟨18, [], []⟩,
            ⟨19, String.toList "newlines", []⟩, ⟨28, [], []⟩, ⟨29, [], []⟩]
          "test.txt") := by
  refine ⟨by decide, by decide, by decide⟩

/-- Claim C5: `Annotation::new` succeeds (storing exactly the given fields)
whenever `start ≤ end`, fails with `InvalidRange(start, end)` whenever
`start > end`, and the `info`/`warning`/`error` convenience constructors
are `new` with the severity fixed. -/
theorem C5_annotation_new (range : Nat × Nat) (sev : Severity)
    (header text : Option String) :
    (range.1 ≤ range.2 →
      Annotation.new range sev header text
        = .ok { range := range, severity := sev, header := header, text := text }) ∧
    (range.2 < range.1 →
      Annotation.new range sev header text = .error (.InvalidRange range.1 range.2)) ∧
    Annotation.info range header text = Annotation.new range .info header text ∧
    Annotation.warning range header text = Annotation.new range .warning header text ∧
    Annotation.error range header text = Annotation.new range .error header text := by
  refine ⟨?_, ?_, rfl, rfl, rfl⟩
  · intro h
    unfold Annotation.new
    rw [if_neg (by omega)]
  · intro h
    unfold Annotation.new
    rw [if_pos h]

theorem C5_annotation_new_witness :
    Annotation.new (2, 5) .info (some "h") none
      = .ok { range := (2, 5), severity := .info, header := some "h", text := none } ∧
    Annotation.new (5, 2) .warning none none = .error (.InvalidRange 5 2) :=
  ⟨(C5_annotation_new (2, 5) .info (some "h") none).1 (by decide),
    (C5_annotation_new (5, 2) .warning none none).2.1 (by decide)⟩

/-- Claim C9: rendering is deterministic and side-effect free.  `show`
consumes the list by shared reference (it cannot modify it) and the bytes it
appends are a function of the list alone, independent of anything already in
the sink; hence repeated `to_bytes()` calls on an unmodified list produce
identical output. -/
theorem C9_render_pure (l : AnnotationList) (stream : List Char) :
    l.show stream = stream ++ l.to_bytes := by
  show (showLines l.filename.toList l.lines.enum (true, stream)).2
    = stream ++ (showLines l.filename.toList l.lines.enum (true, [])).2
  rw [showLines_append l.filename.toList l.lines.enum true stream]

/-- Claim C8: a zero-length range renders no caret underline and suppresses
the body text even when present — the block is the common prefix (severity,
header, location, pipe, quoted line) followed by the bare footer
`nrcol_width` spaces, `|`, line break, and nothing else. -/
theorem C8_zero_range_footer (f : List Char) (idx : Nat) (line : AnnotatedLine)
    (a : Annotation) (stream : List Char) (h : a.range.1 = a.range.2) :
    writeBlock f idx line a stream
      = writeBlock f idx line { a with text := none } stream ∧
    writeBlock f idx line a stream
      = blockPrefix f idx line a stream
          ++ printN ' ' ((natStr (idx + 1)).length + 2) ++ ['|', '\n'] := by
  obtain ⟨r, hdr, txt, sev⟩ := a
  simp only at h
  have hz : ¬r.2 - r.1 ≠ 0 := by omega
  constructor
  · unfold writeBlock
    cases hdr <;> simp [hz]
  · unfold writeBlock blockPrefix
    cases hdr <;> simp [hz, List.append_assoc]

/-- Claim C2: for an annotation whose `range.start` falls inside some
line's content span (and any list reachable through the public API, i.e.
satisfying `WF`), `add` fails with `MultilineRange(start, end)` exactly when
the range's length exceeds that line's content length, and otherwise
attaches the annotation to that line.  The check compares the length only —
not `range.end` against the line's end offset — so a range reaching past
the line's end is accepted whenever its length fits (e.g. `1..3` on
`"ab\ncd"`, exercised by the witness). -/
theorem C2_multiline_length_check (l : AnnotationList) (hwf : WF l)
    (a : Annotation) (i : Nat) (hi : i < l.lines.length)
    (h1 : l.lines[i].start ≤ a.range.1)
    (h2 : a.range.1 < l.lines[i].start + byteLen l.lines[i].content) :
    (a.range.2 - a.range.1 > byteLen l.lines[i].content →
      l.add a = some (l, .error (.MultilineRange a.range.1 a.range.2))) ∧
    (a.range.2 - a.range.1 ≤ byteLen l.lines[i].content →
      l.add a
        = some ({ l with lines := l.lines.set i (appendAnn l.lines[i] a) }, .ok ())) := by
  obtain ⟨j, hj, hle, hmax, hadd⟩ := add_spec l hwf a
  have hij : j = i := by
    have hile : i ≤ j := hmax i hi h1
    rcases Nat.lt_or_ge i j with hlt | hge2
    · exfalso
      have := spans_pairwise l.lines hwf.2 i j hlt hi hj
      omega
    · omega
  subst hij
  constructor
  · intro hml
    rw [hadd, if_neg (by omega), line_add_pos _ _ hml]
    simp [set_self l.lines j hj]
  · intro hml
    rw [hadd, if_neg (by omega), line_add_neg _ _ (by omega)]

theorem C2_multiline_length_check_witness :
    WF (AnnotationList.mk [⟨0, ['a', 'b'], []⟩, ⟨3, ['c', 'd'], []⟩] "t") ∧
    (AnnotationList.mk [⟨0, ['a', 'b'], []⟩, ⟨3, ['c', 'd'], []⟩] "t").add
        ⟨(1, 3), none, none, .info⟩
      = some (AnnotationList.mk
          [⟨0, ['a', 'b'], [⟨(1, 3), none, none, .info⟩]⟩, ⟨3, ['c', 'd'], []⟩] "t",
          .ok ()) :=
  ⟨by decide,
    (C2_multiline_length_check (AnnotationList.mk
        [⟨0, ['a', 'b'], []⟩, ⟨3, ['c', 'd'], []⟩] "t") (by decide)
      ⟨(1, 3), none, none, .info⟩ 0 (by decide) (by decide) (by decide)).2 (by decide)⟩

/-- Claim C6: for any list reachable through the public API (`WF`), `add`
locates the owning line as the line with the greatest start offset not
exceeding `range.start` (a result below the first line being impossible
since the first line starts at 0), fails with `AfterStringEnd(start, end)`
exactly when `range.start ≥ line.start + line.content.length`, and
otherwise — subject only to the multiline length check — appends the
annotation to that line. -/
theorem C6_owning_line (l : AnnotationList) (hwf : WF l) (a : Annotation) :
    ∃ j, ∃ hj : j < l.lines.length,
      l.lines[j].start ≤ a.range.1 ∧
      (∀ m, (hm : m < l.lines.length) → l.lines[m].start ≤ a.range.1 → m ≤ j) ∧
      (a.range.1 ≥ l.lines[j].start + byteLen l.lines[j].content →
        l.add a = some (l, .error (.AfterStringEnd a.range.1 a.range.2))) ∧
      (a.range.1 < l.lines[j].start + byteLen l.lines[j].content →
        a.range.2 - a.range.1 > byteLen l.lines[j].content →
        l.add a = some (l, .error (.MultilineRange a.range.1 a.range.2))) ∧
      (a.range.1 < l.lines[j].start + byteLen l.lines[j].content →
        a.range.2 - a.range.1 ≤ byteLen l.lines[j].content →
        l.add a
          = some ({ l with lines := l.lines.set j (appendAnn l.lines[j] a) }, .ok ())) := by
  obtain ⟨j, hj, hle, hmax, hadd⟩ := add_spec l hwf a
  refine ⟨j, hj, hle, hmax, ?_, ?_, ?_⟩
  · intro hge
    rw [hadd, if_pos hge]
  · intro hlt hml
    rw [hadd, if_neg (by omega), line_add_pos _ _ hml]
    simp [set_self l.lines j hj]
  · intro hlt hml
    rw [hadd, if_neg (by omega), line_add_neg _ _ (by omega)]

theorem C6_owning_line_witness :
    WF (AnnotationList.mk [⟨0, ['a', 'b'], []⟩, ⟨3, ['c', 'd'], []⟩] "t") ∧
    (∃ j, ∃ hj : j <
        (AnnotationList.mk [⟨0, ['a', 'b'], []⟩, ⟨3, ['c', 'd'], []⟩] "t").lines.length,
      (AnnotationList.mk [⟨0, ['a', 'b'], []⟩,
          ⟨3, ['c', 'd'], []⟩] "t").lines[j].start ≤
        (⟨(4, 4), none, none, .warning⟩ : Annotation).range.1 ∧
      (∀ m, (hm : m <
          (AnnotationList.mk [⟨0, ['a', 'b'], []⟩, ⟨3, ['c', 'd'], []⟩] "t").lines.length) →
        (AnnotationList.mk [⟨0, ['a', 'b'], []⟩,
            ⟨3, ['c', 'd'], []⟩] "t").lines[m].start ≤
          (⟨(4, 4), none, none, .warning⟩ : Annotation).range.1 → m ≤ j) ∧
      ((⟨(4, 4), none, none, .warning⟩ : Annotation).range.1 ≥
          (AnnotationList.mk [⟨0, ['a', 'b'], []⟩,
            ⟨3, ['c', 'd'], []⟩] "t").lines[j].start +
            byteLen (AnnotationList.mk [⟨0, ['a', 'b'], []⟩,
              ⟨3, ['c', 'd'], []⟩] "t").lines[j].content →
        (AnnotationList.mk [⟨0, ['a', 'b'], []⟩, ⟨3, ['c', 'd'], []⟩] "t").add
            ⟨(4, 4), none, none, .warning⟩
          = some (AnnotationList.mk [⟨0, ['a', 'b'], []⟩, ⟨3, ['c', 'd'], []⟩] "t",
              .error (.AfterStringEnd 4 4))) ∧
      ((⟨(4, 4), none, none, .warning⟩ : Annotation).range.1 <
          (AnnotationList.mk [⟨0, ['a', 'b'], []⟩,
            ⟨3, ['c', 'd'], []⟩] "t").lines[j].start +
            byteLen (AnnotationList.mk [⟨0, ['a', 'b'], []⟩,
              ⟨3, ['c', 'd'], []⟩] "t").lines[j].content →
        (⟨(4, 4), none, none, .warning⟩ : Annotation).range.2 -
            (⟨(4, 4), none, none, .warning⟩ : Annotation).range.1 >
            byteLen (AnnotationList.mk [⟨0, ['a', 'b'], []⟩,
              ⟨3, ['c', 'd'], []⟩] "t").lines[j].content →
        (AnnotationList.mk [⟨0, ['a', 'b'], []⟩, ⟨3, ['c', 'd'], []⟩] "t").add
            ⟨(4, 4), none, none, .warning⟩
          = some (AnnotationList.mk [⟨0, ['a', 'b'], []⟩, ⟨3, ['c', 'd'], []⟩] "t",
              .error (.MultilineRange 4 4))) ∧
      ((⟨(4, 4), none, none, .warning⟩ : Annotation).range.1 <
          (AnnotationList.mk [⟨0, ['a', 'b'], []⟩,
            ⟨3, ['c', 'd'], []⟩] "t").lines[j].start +
            byteLen (AnnotationList.mk [⟨0, ['a', 'b'], []⟩,
              ⟨3, ['c', 'd'], []⟩] "t").lines[j].content →
        (⟨(4, 4), none, none, .warning⟩ : Annotation).range.2 -
            (⟨(4, 4), none, none, .warning⟩ : Annotation).range.1 ≤
            byteLen (AnnotationList.mk [⟨0, ['a', 'b'], []⟩,
              ⟨3, ['c', 'd'], []⟩] "t").lines[j].content →
        (AnnotationList.mk [⟨0, ['a', 'b'], []⟩, ⟨3, ['c', 'd'], []⟩] "t").add
            ⟨(4, 4), none, none, .warning⟩
          = some ({ AnnotationList.mk [⟨0, ['a', 'b'], []⟩, ⟨3, ['c', 'd'], []⟩] "t" with
              lines := (AnnotationList.mk [⟨0, ['a', 'b'], []⟩,
                ⟨3, ['c', 'd'], []⟩] "t").lines.set j
                  (appendAnn (AnnotationList.mk [⟨0, ['a', 'b'], []⟩,
                    ⟨3, ['c', 'd'], []⟩] "t").lines[j] ⟨(4, 4), none, none, .warning⟩) },
              .ok ()))) :=
  ⟨by decide,
    C6_owning_line (AnnotationList.mk [⟨0, ['a', 'b'], []⟩, ⟨3, ['c', 'd'], []⟩] "t")
      (by decide) ⟨(4, 4), none, none, .warning⟩⟩

/-- Claim C7: when `add` (or `info`/`warning`/`error`) returns an error —
`InvalidRange`, `MultilineRange` or `AfterStringEnd` — the list is left
exactly as it was, and on success exactly one annotation is appended at the
end of the owning line's sequence, all other lines and previously attached
annotations unchanged and in order. -/
theorem C7_no_partial_mutation :
    (∀ (l : AnnotationList) (a : Annotation) (lr : AnnotationList × Except Error Unit),
      l.add a = some lr →
        (∀ e, lr.2 = .error e → lr.1 = l) ∧
        (lr.2 = .ok () → ∃ j, ∃ hj : j < l.lines.length,
          lr.1 = { l with lines := l.lines.set j (appendAnn l.lines[j] a) })) ∧
    (∀ (l : AnnotationList) (range : Nat × Nat) (header text : Option String)
      (lr : AnnotationList × Except Error Unit),
      (l.info range header text = some lr ∨ l.warning range header text = some lr ∨
        l.addError range header text = some lr) →
        ∀ e, lr.2 = .error e → lr.1 = l) := by
  constructor
  · intro l a lr h
    constructor
    · intro e he
      exact add_error_unchanged l a lr h e he
    · intro hok
      obtain ⟨j, hj, _, _, _, hshape⟩ := add_ok_shape l a lr h hok
      exact ⟨j, hj, hshape⟩
  · intro l range header text lr h e he
    rcases h with h | h | h
    · unfold AnnotationList.info at h
      cases hA : Annotation.info range header text with
      | error e' =>
        rw [hA] at h
        have := Option.some.inj h
        rw [← this]
      | ok a =>
        rw [hA] at h
        exact add_error_unchanged l a lr h e he
    · unfold AnnotationList.warning at h
      cases hA : Annotation.warning range header text with
      | error e' =>
        rw [hA] at h
        have := Option.some.inj h
        rw [← this]
      | ok a =>
        rw [hA] at h
        exact add_error_unchanged l a lr h e he
    · unfold AnnotationList.addError at h
      cases hA : Annotation.error range header text with
      | error e' =>
        rw [hA] at h
        have := Option.some.inj h
        rw [← this]
      | ok a =>
        rw [hA] at h
        exact add_error_unchanged l a lr h e he

theorem C7_no_partial_mutation_witness :
    (AnnotationList.mk [⟨0, ['a', 'b'], []⟩, ⟨3, ['c', 'd'], []⟩] "t").add
        ⟨(0, 5), none, none, .info⟩
      = some (AnnotationList.mk [⟨0, ['a', 'b'], []⟩, ⟨3, ['c', 'd'], []⟩] "t",
          .error (.MultilineRange 0 5)) ∧
    ((AnnotationList.mk [⟨0, ['a', 'b'], []⟩, ⟨3, ['c', 'd'], []⟩] "t"),
        (Except.error (Error.MultilineRange 0 5) : Except Error Unit)).1
      = AnnotationList.mk [⟨0, ['a', 'b'], []⟩, ⟨3, ['c', 'd'], []⟩] "t" :=
  ⟨by decide,
    (C7_no_partial_mutation.1
        (AnnotationList.mk [⟨0, ['a', 'b'], []⟩, ⟨3, ['c', 'd'], []⟩] "t")
        ⟨(0, 5), none, none, .info⟩
        ((AnnotationList.mk [⟨0, ['a', 'b'], []⟩, ⟨3, ['c', 'd'], []⟩] "t"),
          .error (.MultilineRange 0 5)) (by decide)).1
      (.MultilineRange 0 5) rfl⟩

/-- Claim C10: the invariant of API-built lists.  `new` establishes
structural well-formedness and the (vacuous) annotation invariant;
`Annotation::new` only ever produces ordered ranges; `add` preserves both
invariants; and under the annotation invariant the renderer's unsigned
subtractions `range.start - line.start` and `range.end - range.start` never
underflow (each subtraction is exact). -/
theorem C10_api_invariant :
    (∀ (f : String) (s : List Char) (l : AnnotationList),
      AnnotationList.new f s = some l → WF l ∧ AnnInv l) ∧
    (∀ (range : Nat × Nat) (sev : Severity) (header text : Option String)
      (a : Annotation),
      Annotation.new range sev header text = .ok a → a.range.1 ≤ a.range.2) ∧
    (∀ (l : AnnotationList) (a : Annotation) (lr : AnnotationList × Except Error Unit),
      WF l → AnnInv l → a.range.1 ≤ a.range.2 → l.add a = some lr →
        WF lr.1 ∧ AnnInv lr.1) ∧
    (∀ (l : AnnotationList), AnnInv l →
      ∀ line ∈ l.lines, ∀ a ∈ line.annotations,
        line.start + (a.range.1 - line.start) = a.range.1 ∧
        a.range.1 + (a.range.2 - a.range.1) = a.range.2) := by
  refine ⟨?_, ?_, ?_, ?_⟩
  · intro f s l h
    exact ⟨(new_spec f s l h).1, new_anninv f s l h⟩
  · intro range sev header text a h
    unfold Annotation.new at h
    split at h
    · simp at h
    · next hcond =>
      have ha := Except.ok.inj h
      rw [← ha]
      simp only
      omega
  · intro l a lr hwf hinv hr h
    exact ⟨wf_add l hwf a lr h, anninv_add l hwf hinv a hr lr h⟩
  · intro l hinv line hline a ha
    have := hinv line hline a ha
    omega

theorem C10_api_invariant_witness :
    WF (AnnotationList.mk [⟨0, ['a', 'b'], []⟩, ⟨3, ['c', 'd'], []⟩] "t") ∧
    AnnInv (AnnotationList.mk [⟨0, ['a', 'b'], []⟩, ⟨3, ['c', 'd'], []⟩] "t") ∧
    (WF ((AnnotationList.mk
        [⟨0, ['a', 'b'], [⟨(1, 3), none, none, .info⟩]⟩, ⟨3, ['c', 'd'], []⟩] "t"),
        (Except.ok () : Except Error Unit)).1 ∧
      AnnInv ((AnnotationList.mk
        [⟨0, ['a', 'b'], [⟨(1, 3), none, none, .info⟩]⟩, ⟨3, ['c', 'd'], []⟩] "t"),
        (Except.ok () : Except Error Unit)).1) :=
  ⟨by decide, by decide,
    C10_api_invariant.2.2.1
      (AnnotationList.mk [⟨0, ['a', 'b'], []⟩, ⟨3, ['c', 'd'], []⟩] "t")
      ⟨(1, 3), none, none, .info⟩
      ((AnnotationList.mk
        [⟨0, ['a', 'b'], [⟨(1, 3), none, none, .info⟩]⟩, ⟨3, ['c', 'd'], []⟩] "t"),
        .ok ())
      (by decide) (by decide) (by decide) (by decide)⟩

theorem C8_zero_range_footer_witness :
    ((1 : Nat), (1 : Nat)).1 = ((1 : Nat), (1 : Nat)).2 ∧
    (writeBlock (String.toList "f") 0 ⟨0, String.toList "ab", []⟩
        ⟨(1, 1), some "hd", some "tx", .info⟩ []
      = writeBlock (String.toList "f") 0 ⟨0, String.toList "ab", []⟩
        { (⟨(1, 1), some "hd", some "tx", .info⟩ : Annotation) with text := none } [] ∧
    writeBlock (String.toList "f") 0 ⟨0, String.toList "ab", []⟩
        ⟨(1, 1), some "hd", some "tx", .info⟩ []
      = blockPrefix (String.toList "f") 0 ⟨0, String.toList "ab", []⟩
          ⟨(1, 1), some "hd", some "tx", .info⟩ []
          ++ printN ' ' ((natStr (0 + 1)).length + 2) ++ ['|', '\n']) :=
  ⟨rfl, C8_zero_range_footer (String.toList "f") 0 ⟨0, String.toList "ab", []⟩
    ⟨(1, 1), some "hd", some "tx", .info⟩ [] rfl⟩

end ShowMyErrors
